import Mathlib

/-!
Shallow embedding of `transfer_with_ether/network.py`: the frame codec
(`_HEADER_STRUCT = struct.Struct("!IQ")`), the exact-read helper `_recv_exact`,
the sender `send_file` and the receiver `receive_file`.

Modelling conventions:
* bytes are `Nat`s below 256, byte buffers are `List Nat`;
* a socket stream is the list of bytes that the peer will deliver before
  closing; a schedule function `sched : Nat → Nat` picks, for the i-th
  `recv` call, how many of the available bytes the OS hands back (clamped to
  the legal range `[1, min requested available]`), so theorems quantify over
  every possible partial-read behaviour of a reliable in-order stream;
* the cancellation token (`threading.Event`) is a function `cancel : Nat → Bool`
  giving the value returned by the i-th `is_set()` poll of the session; the
  real token is monotone (set at most once), which theorems assume where needed;
* callbacks and I/O side effects are recorded in an effect trace (`Eff`).
-/

/-- One observable effect of a sender or receiver session: a status callback,
a progress callback `(bytes_moved, total_bytes)`, opening the TCP connection,
opening the source / destination file, writing bytes to the socket or to the
destination file, deleting the destination file, or creating the destination
directory. -/
inductive Eff : Type
  | statusMsg (msg : String)
  | statusConnected
  | statusReceived (path : List Nat)
  | progress (bytesMoved totalBytes : Nat)
  | connect
  | openSrc
  | openDest (path : List Nat)
  | mkdirDest
  | writeWire (bytes : List Nat)
  | writeFile (bytes : List Nat)
  | unlink (path : List Nat)
  deriving Repr, DecidableEq

/-! ## Frame codec (`_HEADER_STRUCT = struct.Struct("!IQ")`) -/

/-- Big-endian bytes of `v`, width `w` bytes (the fixed-width network-byte-order
fields of `struct.pack`). -/
def beBytes : Nat → Nat → List Nat
  | 0, _ => []
  | w + 1, v => beBytes w (v / 256) ++ [v % 256]

/-- Value of a big-endian byte string (`struct.unpack` field read). -/
def beVal (l : List Nat) : Nat :=
  l.foldl (fun a b => a * 256 + b) 0

/-- `struct.Struct("!IQ").pack(n, s)`: a 12-byte buffer holding `n` as a
big-endian uint32 and `s` as a big-endian uint64; `struct.error` (modelled as
`none`) when a value does not fit its field. -/
def headerPack (n s : Nat) : Option (List Nat) :=
  if n < 2 ^ 32 ∧ s < 2 ^ 64 then some (beBytes 4 n ++ beBytes 8 s) else none

/-- Decoding failure of the 12-byte header: `struct.error` raised by
`_HEADER_STRUCT.unpack` when the buffer does not hold exactly 12 bytes
(the spec names this condition `MalformedHeader`). -/
inductive HeaderError : Type
  | malformedHeader
  deriving Repr, DecidableEq

/-- `struct.Struct("!IQ").unpack(b)`: requires exactly 12 bytes and returns
`(name_length, file_size)` read big-endian. -/
def headerUnpack (b : List Nat) : Except HeaderError (Nat × Nat) :=
  if b.length = 12 then .ok (beVal (b.take 4), beVal (b.drop 4))
  else .error .malformedHeader

theorem beBytes_length (w v : Nat) : (beBytes w v).length = w := by
  induction w generalizing v with
  | zero => rfl
  | succ w ih => simp [beBytes, ih]

theorem beVal_foldl (w v a : Nat) :
    (beBytes w v).foldl (fun x b => x * 256 + b) a = a * 256 ^ w + v % 256 ^ w := by
  induction w generalizing v a with
  | zero => simp [beBytes, beVal, Nat.mod_one]
  | succ w ih =>
    simp only [beBytes, List.foldl_append, List.foldl_cons, List.foldl_nil, ih]
    have hv : v % 256 ^ (w + 1) = v / 256 % 256 ^ w * 256 + v % 256 := by
      rw [pow_succ', Nat.mod_mul]; ring
    rw [hv]; ring

theorem beVal_beBytes (w v : Nat) (h : v < 256 ^ w) : beVal (beBytes w v) = v := by
  unfold beVal
  rw [beVal_foldl, Nat.zero_mul, Nat.zero_add, Nat.mod_eq_of_lt h]

/-- Round trip of the frame codec on in-range fields. -/
theorem headerUnpack_headerPack (n s : Nat) (hn : n < 2 ^ 32) (hs : s < 2 ^ 64) :
    (headerPack n s).map headerUnpack = some (.ok (n, s)) := by
  have e4 : (256 : Nat) ^ 4 = 2 ^ 32 := by norm_num
  have e8 : (256 : Nat) ^ 8 = 2 ^ 64 := by norm_num
  have htake : (beBytes 4 n ++ beBytes 8 s).take 4 = beBytes 4 n :=
    List.take_left' (beBytes_length 4 n)
  have hdrop : (beBytes 4 n ++ beBytes 8 s).drop 4 = beBytes 8 s :=
    List.drop_left' (beBytes_length 4 n)
  have hpack : headerPack n s = some (beBytes 4 n ++ beBytes 8 s) := by
    unfold headerPack
    rw [if_pos ⟨hn, hs⟩]
  rw [hpack]
  show some (headerUnpack (beBytes 4 n ++ beBytes 8 s)) = _
  unfold headerUnpack
  rw [if_pos (by simp [beBytes_length]), htake, hdrop,
    beVal_beBytes 4 n (e4 ▸ hn), beVal_beBytes 8 s (e8 ▸ hs)]

/-- Buffers shorter than 12 bytes fail to decode. -/
theorem headerUnpack_short (b : List Nat) (h : b.length < 12) :
    headerUnpack b = .error .malformedHeader := by
  unfold headerUnpack
  rw [if_neg (by omega)]

/-! ## UTF-8 (`str.encode("utf-8")` and `bytes.decode("utf-8", errors="replace")`)

Filenames cross the wire as UTF-8 bytes: the sender encodes
`file_path.name` and the receiver decodes with `errors="replace"`, which
never raises and substitutes U+FFFD for malformed input. Strings are
modelled as lists of code points. The decoder below follows the UTF-8
validation rules (continuation-byte ranges, overlong and surrogate and
out-of-range rejection); on malformed input it emits one U+FFFD per
rejected byte, a best-effort approximation of CPython's
maximal-subpart replacement that agrees with it on all well-formed input. -/

/-- A Unicode scalar value, the code points a well-formed Python `str`
passed to `.encode("utf-8")` may hold. -/
def ValidScalar (c : Nat) : Prop := c < 0x110000 ∧ ¬(0xD800 ≤ c ∧ c < 0xE000)

instance (c : Nat) : Decidable (ValidScalar c) := by
  unfold ValidScalar
  infer_instance

/-- UTF-8 bytes of one code point (`str.encode("utf-8")`, per character). -/
def utf8EncodeChar (c : Nat) : List Nat :=
  if c < 0x80 then [c]
  else if c < 0x800 then [0xC0 + c / 64, 0x80 + c % 64]
  else if c < 0x10000 then [0xE0 + c / 4096, 0x80 + c / 64 % 64, 0x80 + c % 64]
  else [0xF0 + c / 262144, 0x80 + c / 4096 % 64, 0x80 + c / 64 % 64, 0x80 + c % 64]

/-- `str.encode("utf-8")` over a string's code points. -/
def utf8Encode (cps : List Nat) : List Nat :=
  (cps.map utf8EncodeChar).flatten

/-- One step of UTF-8 decoding with replacement: given the lead byte `b` and
the remaining bytes `rest`, return the decoded code point (U+FFFD on a
malformed sequence) and how many bytes of `rest` the sequence consumed
(0 for a one-byte or rejected sequence). Validation follows the UTF-8 rules:
continuation bytes in `0x80..0xBF`, overlong, surrogate and out-of-range
encodings rejected. -/
def utf8Step (b : Nat) (rest : List Nat) : Nat × Nat :=
  if b < 0x80 then (b, 0)
  else if b < 0xC2 then (0xFFFD, 0)
  else if b < 0xE0 then
    match rest with
    | b1 :: _ =>
      if 0x80 ≤ b1 ∧ b1 < 0xC0 then ((b - 0xC0) * 64 + (b1 - 0x80), 1)
      else (0xFFFD, 0)
    | [] => (0xFFFD, 0)
  else if b < 0xF0 then
    match rest with
    | b1 :: b2 :: _ =>
      if (0x80 ≤ b1 ∧ b1 < 0xC0) ∧ (0x80 ≤ b2 ∧ b2 < 0xC0) ∧
          (b = 0xE0 → 0xA0 ≤ b1) ∧ (b = 0xED → b1 < 0xA0) then
        ((b - 0xE0) * 4096 + (b1 - 0x80) * 64 + (b2 - 0x80), 2)
      else (0xFFFD, 0)
    | _ => (0xFFFD, 0)
  else if b < 0xF5 then
    match rest with
    | b1 :: b2 :: b3 :: _ =>
      if (0x80 ≤ b1 ∧ b1 < 0xC0) ∧ (0x80 ≤ b2 ∧ b2 < 0xC0) ∧
          (0x80 ≤ b3 ∧ b3 < 0xC0) ∧
          (b = 0xF0 → 0x90 ≤ b1) ∧ (b = 0xF4 → b1 < 0x90) then
        ((b - 0xF0) * 262144 + (b1 - 0x80) * 4096 + (b2 - 0x80) * 64 +
          (b3 - 0x80), 3)
      else (0xFFFD, 0)
    | _ => (0xFFFD, 0)
  else (0xFFFD, 0)

/-- `bytes.decode("utf-8", errors="replace")`: total decoding of any byte
string into code points, substituting U+FFFD (`0xFFFD`) for malformed
sequences instead of failing (one U+FFFD per rejected lead byte, a
best-effort approximation of CPython's maximal-subpart replacement that
agrees with it on all well-formed input). -/
def utf8DecodeReplace : List Nat → List Nat
  | [] => []
  | b :: rest =>
    (utf8Step b rest).1 :: utf8DecodeReplace (rest.drop (utf8Step b rest).2)
termination_by l => l.length
decreasing_by simp [List.length_drop]; omega

/-- Decoding a valid scalar's UTF-8 bytes at the head of a stream recovers the
scalar and leaves the tail to be decoded. -/
theorem utf8DecodeReplace_encodeChar (c : Nat) (h : ValidScalar c) (rest : List Nat) :
    utf8DecodeReplace (utf8EncodeChar c ++ rest) = c :: utf8DecodeReplace rest := by
  obtain ⟨hlt, hsur⟩ := h
  by_cases h1 : c < 0x80
  · simp only [utf8EncodeChar, if_pos h1, List.cons_append, List.nil_append]
    have hs : utf8Step c rest = (c, 0) := by
      simp only [utf8Step]
      rw [if_pos h1]
    simp only [utf8DecodeReplace, hs, List.drop_zero]
  · by_cases h2 : c < 0x800
    · simp only [utf8EncodeChar, if_neg h1, if_pos h2, List.cons_append, List.nil_append]
      have hs : utf8Step (0xC0 + c / 64) ((0x80 + c % 64) :: rest) = (c, 1) := by
        simp only [utf8Step]
        rw [if_neg (by omega), if_neg (by omega), if_pos (by omega), if_pos (by omega)]
        have hv : (0xC0 + c / 64 - 0xC0) * 64 + (0x80 + c % 64 - 0x80) = c := by omega
        rw [hv]
      simp only [utf8DecodeReplace, hs, List.drop_succ_cons, List.drop_zero]
    · by_cases h3 : c < 0x10000
      · simp only [utf8EncodeChar, if_neg h1, if_neg h2, if_pos h3, List.cons_append,
          List.nil_append]
        have hs : utf8Step (0xE0 + c / 4096)
            ((0x80 + c / 64 % 64) :: (0x80 + c % 64) :: rest) = (c, 2) := by
          simp only [utf8Step]
          rw [if_neg (by omega), if_neg (by omega), if_neg (by omega), if_pos (by omega),
            if_pos (by omega)]
          have hv : (0xE0 + c / 4096 - 0xE0) * 4096 + (0x80 + c / 64 % 64 - 0x80) * 64 +
              (0x80 + c % 64 - 0x80) = c := by omega
          rw [hv]
        simp only [utf8DecodeReplace, hs, List.drop_succ_cons, List.drop_zero]
      · simp only [utf8EncodeChar, if_neg h1, if_neg h2, if_neg h3, List.cons_append,
          List.nil_append]
        have hs : utf8Step (0xF0 + c / 262144)
            ((0x80 + c / 4096 % 64) :: (0x80 + c / 64 % 64) :: (0x80 + c % 64) :: rest) =
            (c, 3) := by
          simp only [utf8Step]
          rw [if_neg (by omega), if_neg (by omega), if_neg (by omega), if_neg (by omega),
            if_pos (by omega), if_pos (by omega)]
          have hv : (0xF0 + c / 262144 - 0xF0) * 262144 + (0x80 + c / 4096 % 64 - 0x80) * 4096 +
              (0x80 + c / 64 % 64 - 0x80) * 64 + (0x80 + c % 64 - 0x80) = c := by omega
          rw [hv]
        simp only [utf8DecodeReplace, hs, List.drop_succ_cons, List.drop_zero]

/-- `decode utf-8 replace` inverts `encode utf-8` on well-formed strings. -/
theorem utf8DecodeReplace_utf8Encode (cps : List Nat) (h : ∀ c ∈ cps, ValidScalar c) :
    utf8DecodeReplace (utf8Encode cps) = cps := by
  induction cps with
  | nil => simp [utf8Encode, utf8DecodeReplace]
  | cons c cps ih =>
    have hc : ValidScalar c := h c (List.mem_cons_self c cps)
    have hrest : ∀ x ∈ cps, ValidScalar x := fun x hx => h x (List.mem_cons_of_mem c hx)
    show utf8DecodeReplace (utf8EncodeChar c ++ utf8Encode cps) = c :: cps
    rw [utf8DecodeReplace_encodeChar c hc, ih hrest]

/-! ## Destination path construction (`target_path = destination / filename`)

The receiver joins the decoded filename onto the destination directory with
`pathlib`'s `/` operator, which performs no sanitisation: an absolute right
operand replaces the left entirely, and `..` components are kept verbatim.
Paths are code-point strings; `47` is `/`. -/

/-- `pathlib` join `destination / filename`. -/
def pathJoin (dest name : List Nat) : List Nat :=
  if name.head? = some 47 then name else dest ++ 47 :: name

/-- Split a path on `/` into segments (spec vocabulary for saying when a path
lies under a directory; not part of the program). -/
def splitSegsAux : List Nat → List Nat → List (List Nat)
  | [], acc => [acc.reverse]
  | c :: rest, acc =>
    if c = 47 then acc.reverse :: splitSegsAux rest []
    else splitSegsAux rest (c :: acc)

/-- Resolve empty, `.` and `..` segments (spec vocabulary, as above). -/
def normSegsAux : List (List Nat) → List (List Nat) → List (List Nat)
  | [], acc => acc.reverse
  | s :: rest, acc =>
    if s = [] ∨ s = [46] then normSegsAux rest acc
    else if s = [46, 46] then normSegsAux rest acc.tail
    else normSegsAux rest (s :: acc)

/-- Normalised segment list of a path. -/
def normPath (p : List Nat) : List (List Nat) :=
  normSegsAux (splitSegsAux p []) []

/-- Whether the first segment list is an initial run of the second. -/
def initSegs : List (List Nat) → List (List Nat) → Bool
  | [], _ => true
  | _ :: _, [] => false
  | a :: as, b :: bs => if a = b then initSegs as bs else false

/-- The target path lies under the directory, after normalising `.`, `..` and
empty segments. -/
def underDir (dir target : List Nat) : Bool :=
  initSegs (normPath dir) (normPath target)

/-! ## The exact-read helper `_recv_exact` -/

/-- `_recv_exact(sock, size)`: loop accumulating `sock.recv(remaining)` results
until exactly `size` bytes are collected; a `recv` returning no bytes (peer
closed early) raises `ConnectionError`, modelled as `.error ()`.

`s` is the byte stream the peer will deliver before closing and `i` the index
of the next `recv` call; the schedule `sched` chooses how many available bytes
the i-th `recv` returns, clamped to the legal range `[1, min remaining
available]`. On success the result is the collected bytes, the undelivered
remainder of the stream, and the next call index. -/
def recvExact (sched : Nat → Nat) (i : Nat) (size : Nat) (s : List Nat) :
    Except Unit (List Nat × List Nat × Nat) :=
  if _h : size = 0 then .ok ([], s, i)
  else
    match s with
    | [] => .error ()
    | b :: t =>
      let k := min (max (sched i) 1) (min size (t.length + 1))
      match recvExact sched (i + 1) (size - k) ((b :: t).drop k) with
      | .ok (data, s2, j) => .ok ((b :: t).take k ++ data, s2, j)
      | .error e => .error e
termination_by size
decreasing_by omega

/-- When the stream holds at least `size` bytes, `_recv_exact` returns exactly
the first `size` bytes and leaves the rest undelivered. -/
theorem recvExact_ok (sched : Nat → Nat) (size : Nat) :
    ∀ i (s : List Nat), size ≤ s.length →
    ∃ j, recvExact sched i size s = .ok (s.take size, s.drop size, j) := by
  induction size using Nat.strong_induction_on with
  | _ size ih =>
    intro i s hle
    by_cases h0 : size = 0
    · subst h0
      refine ⟨i, ?_⟩
      unfold recvExact
      simp
    · cases s with
      | nil => simp at hle; omega
      | cons b t =>
        simp only [recvExact, dif_neg h0]
        have hk1 : 1 ≤ min (max (sched i) 1) (min size (t.length + 1)) := by
          simp only [le_min_iff]
          omega
        have hkle : min (max (sched i) 1) (min size (t.length + 1)) ≤ size := by
          omega
        set k := min (max (sched i) 1) (min size (t.length + 1)) with hk
        have hlen : size - k ≤ ((b :: t).drop k).length := by
          simp only [List.length_drop, List.length_cons]
          simp only [List.length_cons] at hle
          omega
        obtain ⟨j, hj⟩ := ih (size - k) (by omega) (i + 1) ((b :: t).drop k) hlen
        refine ⟨j, ?_⟩
        rw [hj]
        dsimp only
        have htake : (b :: t).take k ++ ((b :: t).drop k).take (size - k) =
            (b :: t).take size := by
          rw [← List.take_add]
          congr 1
          omega
        have hdrop : ((b :: t).drop k).drop (size - k) = (b :: t).drop size := by
          rw [List.drop_drop]
          congr 1
          omega
        rw [htake, hdrop]

/-- When the peer closes before `size` bytes arrive, `_recv_exact` raises
`ConnectionError`. -/
theorem recvExact_err (sched : Nat → Nat) (size : Nat) :
    ∀ i (s : List Nat), s.length < size →
    recvExact sched i size s = .error () := by
  induction size using Nat.strong_induction_on with
  | _ size ih =>
    intro i s hlt
    have h0 : size ≠ 0 := by omega
    cases s with
    | nil =>
      simp only [recvExact, dif_neg h0]
    | cons b t =>
      simp only [recvExact, dif_neg h0]
      have hk1 : 1 ≤ min (max (sched i) 1) (min size (t.length + 1)) := by
        simp only [le_min_iff]
        omega
      set k := min (max (sched i) 1) (min size (t.length + 1)) with hk
      have hrec : recvExact sched (i + 1) (size - k) ((b :: t).drop k) = .error () := by
        apply ih (size - k) (by omega)
        simp only [List.length_drop, List.length_cons]
        simp only [List.length_cons] at hlt
        omega
      rw [hrec]

/-! ## Sender (`send_file`)

The source file is `file : Option (List Nat)` (`none` when `file_path` does
not exist), `basename` the code points of `file_path.name`, `connectOk`
whether `socket.create_connection` succeeds. `cancel i` is the value of the
i-th `stop_event.is_set()` poll. The wire field collects every byte written
to the socket in order (`_send_all` retries partial writes until all bytes
are flushed, so each Python-level write contributes its bytes exactly once). -/

/-- Terminal outcome of `send_file`: normal return after the completed or the
cancelled status, `FileNotFoundError`, `ConnectionError` from dialing, or
`struct.error` from packing an oversized field. -/
inductive SendResult : Type
  | completed
  | cancelled
  | fileNotFound
  | connectError
  | packError
  deriving Repr, DecidableEq

/-- Observable result of a `send_file` run: the effect trace, the bytes put on
the wire, and the terminal outcome. -/
structure SendRun : Type where
  trace : List Eff
  wire : List Nat
  result : SendResult
  deriving Repr, DecidableEq

/-- Events, wire bytes and next poll index of the sender chunk loop
(`while not stop_event.is_set(): chunk = src.read(chunk_size); ...`).
`src` is the unread remainder of the source file, `bytesSent` and `fileSize`
the Python variables, `pc` the index of the next `is_set()` poll. -/
def sendLoop (cancel : Nat → Bool) (chunkSize : Nat) (src : List Nat)
    (bytesSent fileSize pc : Nat) : List Eff × List Nat × Nat :=
  if cancel pc then ([], [], pc + 1)
  else if hne : src.take chunkSize = [] then ([], [], pc + 1)
  else
    let out := sendLoop cancel chunkSize (src.drop chunkSize)
      (bytesSent + (src.take chunkSize).length) fileSize (pc + 1)
    (.writeWire (src.take chunkSize) ::
        .progress (bytesSent + (src.take chunkSize).length) fileSize :: out.1,
      src.take chunkSize ++ out.2.1, out.2.2)
termination_by src.length
decreasing_by
  simp only [List.length_drop]
  rcases src with _ | ⟨a, l⟩
  · simp at hne
  · rcases Nat.eq_zero_or_pos chunkSize with hc | hc
    · subst hc
      simp at hne
    · simp only [List.length_cons]
      omega

/-- `send_file(host, port, file_path, chunk_size, stop_event)`. -/
def send_file (cancel : Nat → Bool) (file : Option (List Nat))
    (basename : List Nat) (chunkSize : Nat) (connectOk : Bool) : SendRun :=
  match file with
  | none => ⟨[], [], .fileNotFound⟩
  | some content =>
    let fileSize := content.length
    let nameBytes := utf8Encode basename
    if ¬connectOk then
      ⟨[.statusMsg "Connecting to receiver...", .connect], [], .connectError⟩
    else
      match headerPack nameBytes.length fileSize with
      | none => ⟨[.statusMsg "Connecting to receiver...", .connect], [], .packError⟩
      | some header =>
        let out := sendLoop cancel chunkSize content 0 fileSize 0
        let pre : List Eff := [.statusMsg "Connecting to receiver...", .connect,
          .writeWire header, .writeWire nameBytes,
          .statusMsg "Transferring file...", .openSrc]
        if cancel out.2.2 then
          ⟨pre ++ out.1 ++ [.statusMsg "Transfer cancelled by user."],
            header ++ nameBytes ++ out.2.1, .cancelled⟩
        else
          ⟨pre ++ out.1 ++ [.progress fileSize fileSize,
            .statusMsg "Transfer completed successfully."],
            header ++ nameBytes ++ out.2.1, .completed⟩

/-! ## Receiver (`receive_file`)

`wire` is the byte stream the connected sender will deliver before closing,
`dest` the code points of the destination directory path, `acceptReady i`
whether a sender is waiting when the i-th `accept` attempt runs (each attempt
has a 1-second timeout), `cancel` and `sched` as before. The `file` field of
the run is the destination file left on disk: `none` when it was never
created or was deleted, otherwise its path and content. -/

/-- Terminal outcome of `receive_file`: the stored path (normal return),
`None` after cancellation, `ConnectionError`, `struct.error` from `unpack`,
or — a model artefact — `stuck`, when the supplied fuel for the blocking
accept loop runs out with no sender and no cancellation. -/
inductive RecvResult : Type
  | ok (path : List Nat)
  | cancelled
  | connError
  | headerError
  | stuck
  deriving Repr, DecidableEq

/-- Observable result of a `receive_file` run. -/
structure RecvRun : Type where
  trace : List Eff
  result : RecvResult
  file : Option (List Nat × List Nat)
  deriving Repr, DecidableEq

/-- The accept loop: `while not stop_event.is_set(): try accept / except
timeout: continue`, with a `break` on success and the `while`-`else` arm
returning `None` when the token stops the loop. One `is_set()` poll per
iteration; `fuel` bounds the modelled iterations because the real loop can
block forever (theorems supply enough fuel). Returns `none` when fuel runs
out, `some none` when cancelled before a connection, and `some (some pc)`
with the next poll index when a connection is accepted. -/
def acceptLoop (cancel acceptReady : Nat → Bool) : Nat → Nat → Nat → Option (Option Nat)
  | 0, _, _ => none
  | fuel + 1, pc, ai =>
    if cancel pc then some none
    else if acceptReady ai then some (some (pc + 1))
    else acceptLoop cancel acceptReady fuel (pc + 1) (ai + 1)

/-- State left by the receiver streaming loop
(`while bytes_received < file_size and not stop_event.is_set(): ...`):
emitted effects, bytes appended to the destination file, the final
`bytes_received`, the next poll index, and whether `ConnectionError` was
raised because a `recv` returned no bytes. The loop condition polls the token
only when `bytes_received < file_size` (Python `and` short-circuits). -/
structure StreamOut : Type where
  evs : List Eff
  written : List Nat
  received : Nat
  pc : Nat
  err : Bool
  deriving Repr, DecidableEq

/-- The receiver streaming loop. Each iteration receives at most
`min(64 * 1024, file_size - bytes_received)` bytes, writes them to the
destination file and reports progress. -/
def recvStreamLoop (cancel : Nat → Bool) (sched : Nat → Nat) (fileSize : Nat) :
    Nat → Nat → Nat → List Nat → StreamOut
  | received, pc, ri, s =>
    if hlt : received < fileSize then
      if cancel pc then ⟨[], [], received, pc + 1, false⟩
      else
        match s with
        | [] => ⟨[], [], received, pc + 1, true⟩
        | b :: t =>
          let out := recvStreamLoop cancel sched fileSize
            (received + min (max (sched ri) 1)
              (min (min 65536 (fileSize - received)) (t.length + 1)))
            (pc + 1) (ri + 1)
            ((b :: t).drop (min (max (sched ri) 1)
              (min (min 65536 (fileSize - received)) (t.length + 1))))
          ⟨.writeFile ((b :: t).take (min (max (sched ri) 1)
                (min (min 65536 (fileSize - received)) (t.length + 1)))) ::
              .progress (received + min (max (sched ri) 1)
                (min (min 65536 (fileSize - received)) (t.length + 1))) fileSize ::
              out.evs,
            (b :: t).take (min (max (sched ri) 1)
              (min (min 65536 (fileSize - received)) (t.length + 1))) ++ out.written,
            out.received, out.pc, out.err⟩
    else ⟨[], [], received, pc, false⟩
termination_by received _ _ _ => fileSize - received
decreasing_by omega

/-- `receive_file(port, destination_dir, stop_event)`. -/
def receive_file (cancel : Nat → Bool) (sched : Nat → Nat) (acceptReady : Nat → Bool)
    (fuel : Nat) (dest : List Nat) (wire : List Nat) : RecvRun :=
  let pre : List Eff := [.mkdirDest, .statusMsg "Waiting for sender to connect..."]
  match acceptLoop cancel acceptReady fuel 0 0 with
  | none => ⟨pre, .stuck, none⟩
  | some none => ⟨pre ++ [.statusMsg "Listening cancelled by user."], .cancelled, none⟩
  | some (some pc0) =>
    match recvExact sched 0 12 wire with
    | .error _ => ⟨pre ++ [.statusConnected], .connError, none⟩
    | .ok (hdr, s1, ri1) =>
      match headerUnpack hdr with
      | .error _ => ⟨pre ++ [.statusConnected], .headerError, none⟩
      | .ok (nameLen, fileSize) =>
        match recvExact sched ri1 nameLen s1 with
        | .error _ => ⟨pre ++ [.statusConnected], .connError, none⟩
        | .ok (nameBytes, s2, ri2) =>
          let target := pathJoin dest (utf8DecodeReplace nameBytes)
          let out := recvStreamLoop cancel sched fileSize 0 pc0 ri2 s2
          if out.err then
            ⟨pre ++ .statusConnected :: .openDest target :: out.evs,
              .connError, some (target, out.written)⟩
          else if cancel out.pc then
            ⟨pre ++ .statusConnected :: .openDest target :: out.evs ++
                [.unlink target, .statusMsg "Transfer cancelled by user."],
              .cancelled, none⟩
          else
            ⟨pre ++ .statusConnected :: .openDest target :: out.evs ++
                [.progress fileSize fileSize, .statusReceived target],
              .ok target, some (target, out.written)⟩

/-! ## Lemmas about the sender -/

/-- Decoding the packed header bytes directly. -/
theorem headerUnpack_beBytes (n s : Nat) (hn : n < 2 ^ 32) (hs : s < 2 ^ 64) :
    headerUnpack (beBytes 4 n ++ beBytes 8 s) = .ok (n, s) := by
  have h := headerUnpack_headerPack n s hn hs
  rw [headerPack, if_pos ⟨hn, hs⟩] at h
  simpa using h

/-- The `(bytes_moved, total_bytes)` arguments of the progress callbacks in a
trace, in order. -/
def progressPairs (tr : List Eff) : List (Nat × Nat) :=
  tr.filterMap fun e =>
    match e with
    | .progress b t => some (b, t)
    | _ => none

/-- With the token never set, the sender loop writes the whole source file to
the socket. -/
theorem sendLoop_false_wire (chunkSize : Nat) (hcs : 0 < chunkSize) :
    ∀ (n : Nat) (src : List Nat) (bytesSent fileSize pc : Nat), src.length ≤ n →
    (sendLoop (fun _ => false) chunkSize src bytesSent fileSize pc).2.1 = src := by
  intro n
  induction n with
  | zero =>
    intro src bytesSent fileSize pc hlen
    have hnil : src = [] := List.eq_nil_of_length_eq_zero (by omega)
    subst hnil
    rw [sendLoop.eq_def]
    simp
  | succ n ih =>
    intro src bytesSent fileSize pc hlen
    cases src with
    | nil =>
      rw [sendLoop.eq_def]
      simp
    | cons a t =>
      have hne : (a :: t).take chunkSize ≠ [] := by
        simp [List.take_eq_nil_iff]
        omega
      rw [sendLoop.eq_def]
      simp only [Bool.false_eq_true, if_false, dif_neg hne]
      have hrec := ih ((a :: t).drop chunkSize)
        (bytesSent + ((a :: t).take chunkSize).length) fileSize (pc + 1)
        (by simp only [List.length_drop, List.length_cons] at *; omega)
      rw [hrec, List.take_append_drop]

/-- With the token first observed set at poll `N` and more than `N` full
chunks available, the sender loop stops after writing exactly the first
`N - pc` remaining chunks and hands poll index `N + 1` to the post-loop
check. -/
theorem sendLoop_cancelFrom (chunkSize N : Nat) (hcs : 0 < chunkSize) :
    ∀ (n : Nat) (src : List Nat) (bytesSent fileSize pc : Nat), N - pc ≤ n → pc ≤ N →
    (N - pc) * chunkSize < src.length →
    (sendLoop (fun i => decide (N ≤ i)) chunkSize src bytesSent fileSize pc).2.1 =
      src.take ((N - pc) * chunkSize) ∧
    (sendLoop (fun i => decide (N ≤ i)) chunkSize src bytesSent fileSize pc).2.2 = N + 1 := by
  intro n
  induction n with
  | zero =>
    intro src bytesSent fileSize pc hn hpc hlt
    have hpcN : pc = N := by omega
    subst hpcN
    rw [sendLoop.eq_def]
    simp
  | succ n ih =>
    intro src bytesSent fileSize pc hn hpc hlt
    rcases Nat.lt_or_ge pc N with hpcN | hge
    · have hcfalse : decide (N ≤ pc) = false := by
        simp
        omega
      have hne : src.take chunkSize ≠ [] := by
        simp [List.take_eq_nil_iff]
        constructor
        · omega
        · intro hs
          rw [hs] at hlt
          simp at hlt
      rw [sendLoop.eq_def]
      rw [hcfalse]
      simp only [Bool.false_eq_true, if_false, dif_neg hne]
      have hlen : (N - (pc + 1)) * chunkSize < (src.drop chunkSize).length := by
        simp only [List.length_drop]
        have h1 : N - pc = (N - (pc + 1)) + 1 := by omega
        rw [h1] at hlt
        have h2 : (N - (pc + 1)) * chunkSize + chunkSize ≤ ((N - (pc + 1)) + 1) * chunkSize := by
          ring_nf
          omega
        omega
      have hrec := ih (src.drop chunkSize) (bytesSent + (src.take chunkSize).length)
        fileSize (pc + 1) (by omega) (by omega) hlen
      refine ⟨?_, hrec.2⟩
      rw [hrec.1, ← List.take_add]
      congr 1
      have h1 : N - pc = (N - (pc + 1)) + 1 := by omega
      rw [h1]
      ring
    · have hpcN : pc = N := by omega
      subst hpcN
      rw [sendLoop.eq_def]
      simp

/-- Progress events of the sender loop: `bytes_moved` grows monotonically from
the entry value, never exceeds entry value plus the unread bytes, and
`total_bytes` is always `file_size`. -/
theorem sendLoop_pairs (cancel : Nat → Bool) (chunkSize : Nat) :
    ∀ (n : Nat) (src : List Nat) (bytesSent fileSize pc : Nat), src.length ≤ n →
    List.Chain' (fun p q : Nat × Nat => p.1 ≤ q.1)
      ((bytesSent, fileSize) ::
        progressPairs (sendLoop cancel chunkSize src bytesSent fileSize pc).1) ∧
    ∀ q ∈ progressPairs (sendLoop cancel chunkSize src bytesSent fileSize pc).1,
      q.1 ≤ bytesSent + src.length ∧ q.2 = fileSize := by
  intro n
  induction n with
  | zero =>
    intro src bytesSent fileSize pc hlen
    have hnil : src = [] := List.eq_nil_of_length_eq_zero (by omega)
    subst hnil
    rw [sendLoop.eq_def]
    cases hcb : cancel pc with
    | true => simp [progressPairs]
    | false => simp [progressPairs]
  | succ n ih =>
    intro src bytesSent fileSize pc hlen
    rw [sendLoop.eq_def]
    cases hcb : cancel pc with
    | true => simp [progressPairs]
    | false =>
      simp only [Bool.false_eq_true, if_false]
      by_cases hne : src.take chunkSize = []
      · rw [dif_pos hne]
        simp [progressPairs]
      · rw [dif_neg hne]
        have hcs0 : chunkSize ≠ 0 := by
          intro hc
          apply hne
          simp [hc]
        have hlen2 : (src.drop chunkSize).length ≤ n := by
          simp only [List.length_drop]
          have : src ≠ [] := by
            intro hs
            apply hne
            simp [hs]
          have : 0 < src.length := List.length_pos.mpr this
          omega
        have hrec := ih (src.drop chunkSize) (bytesSent + (src.take chunkSize).length)
          fileSize (pc + 1) hlen2
        have htlen : (src.take chunkSize).length = min chunkSize src.length := by
          simp
        have hdlen : (src.drop chunkSize).length = src.length - chunkSize := by
          simp
        constructor
        · simp only [progressPairs, List.filterMap_cons]
          refine List.chain'_cons.mpr ⟨by simp, ?_⟩
          exact hrec.1
        · simp only [progressPairs, List.filterMap_cons]
          intro q hq
          rcases List.mem_cons.mp hq with hq1 | hq2
          · subst hq1
            refine ⟨?_, rfl⟩
            simp only []
            omega
          · have h2 := hrec.2 q hq2
            rw [htlen] at h2
            rw [hdlen] at h2
            constructor
            · omega
            · exact h2.2

/-! ## Lemmas about the receiver -/

/-- When the token stays unset through every poll the loop can make and the
stream holds all announced bytes, the streaming loop writes exactly the first
`file_size - bytes_received` stream bytes, reaches `bytes_received =
file_size` without error, and consumes at most one poll per received chunk. -/
theorem recvStreamLoop_complete (cancel : Nat → Bool) (sched : Nat → Nat) (fileSize : Nat) :
    ∀ (n received pc ri : Nat) (s : List Nat), fileSize - received ≤ n →
    received ≤ fileSize → fileSize - received ≤ s.length →
    (∀ i, i ≤ pc + (fileSize - received) → cancel i = false) →
    (recvStreamLoop cancel sched fileSize received pc ri s).written =
      s.take (fileSize - received) ∧
    (recvStreamLoop cancel sched fileSize received pc ri s).received = fileSize ∧
    (recvStreamLoop cancel sched fileSize received pc ri s).err = false ∧
    (recvStreamLoop cancel sched fileSize received pc ri s).pc ≤
      pc + (fileSize - received) := by
  intro n
  induction n with
  | zero =>
    intro received pc ri s hn hrec hslen hnc
    have hnlt : ¬received < fileSize := by omega
    have h0 : fileSize - received = 0 := by omega
    rw [recvStreamLoop.eq_def]
    dsimp only
    rw [dif_neg hnlt, h0]
    simp
    omega
  | succ n ih =>
    intro received pc ri s hn hrec hslen hnc
    by_cases hlt : received < fileSize
    · have hc : cancel pc = false := hnc pc (by omega)
      rw [recvStreamLoop.eq_def]
      dsimp only
      rw [dif_pos hlt, hc]
      simp only [Bool.false_eq_true, if_false]
      cases s with
      | nil =>
        simp only [List.length_nil] at hslen
        omega
      | cons b t =>
        dsimp only
        set k := min (max (sched ri) 1) (min (min 65536 (fileSize - received)) (t.length + 1))
          with hkdef
        have hk1 : 1 ≤ k := by
          rw [hkdef]
          simp only [List.length_cons] at hslen
          omega
        have hkfs : k ≤ fileSize - received := by
          rw [hkdef]
          omega
        have hkt : k ≤ t.length + 1 := by
          rw [hkdef]
          omega
        have hrec2 := ih (received + k) (pc + 1) (ri + 1) ((b :: t).drop k)
          (by omega) (by omega)
          (by simp only [List.length_drop, List.length_cons]
              simp only [List.length_cons] at hslen
              omega)
          (by intro i hi
              apply hnc
              omega)
        refine ⟨?_, hrec2.2.1, hrec2.2.2.1, ?_⟩
        · show (b :: t).take k ++
            (recvStreamLoop cancel sched fileSize (received + k) (pc + 1) (ri + 1)
              ((b :: t).drop k)).written = (b :: t).take (fileSize - received)
          rw [hrec2.1, ← List.take_add]
          congr 1
          omega
        · show (recvStreamLoop cancel sched fileSize (received + k) (pc + 1) (ri + 1)
            ((b :: t).drop k)).pc ≤ pc + (fileSize - received)
          have := hrec2.2.2.2
          omega
    · have h0 : fileSize - received = 0 := by omega
      rw [recvStreamLoop.eq_def]
      dsimp only
      rw [dif_neg hlt, h0]
      simp
      omega

/-- With the token first observed set at poll `N + 1` and fewer than
`file_size` bytes obtainable in the polls before that, the streaming loop
exits on the token with `bytes_received` still short of `file_size`, no
error, and hands poll index `N + 2` to the post-loop check. -/
theorem recvStreamLoop_cancelMid (sched : Nat → Nat) (fileSize N : Nat) :
    ∀ (n received pc ri : Nat) (s : List Nat), N + 1 - pc ≤ n → pc ≤ N + 1 →
    received + (N + 1 - pc) * 65536 < fileSize → fileSize - received ≤ s.length →
    (recvStreamLoop (fun i => decide (N + 1 ≤ i)) sched fileSize received pc ri s).err =
      false ∧
    (recvStreamLoop (fun i => decide (N + 1 ≤ i)) sched fileSize received pc ri s).received <
      fileSize ∧
    (recvStreamLoop (fun i => decide (N + 1 ≤ i)) sched fileSize received pc ri s).pc =
      N + 2 := by
  intro n
  induction n with
  | zero =>
    intro received pc ri s hn hpc hsum hslen
    have hpcN : pc = N + 1 := by omega
    subst hpcN
    have hlt : received < fileSize := by omega
    rw [recvStreamLoop.eq_def]
    dsimp only
    rw [dif_pos hlt]
    have hct : decide (N + 1 ≤ N + 1) = true := by simp
    rw [hct]
    simp only [if_true]
    exact ⟨trivial, hlt, trivial⟩
  | succ n ih =>
    intro received pc ri s hn hpc hsum hslen
    rcases Nat.lt_or_ge pc (N + 1) with hpcN | hge
    · have hlt : received < fileSize := by
        have : 1 ≤ N + 1 - pc := by omega
        have : 65536 ≤ (N + 1 - pc) * 65536 := by
          calc 65536 = 1 * 65536 := by ring
          _ ≤ (N + 1 - pc) * 65536 := by
            apply Nat.mul_le_mul_right
            omega
        omega
      have hc : decide (N + 1 ≤ pc) = false := by
        simp
        omega
      rw [recvStreamLoop.eq_def]
      dsimp only
      rw [dif_pos hlt, hc]
      simp only [Bool.false_eq_true, if_false]
      cases s with
      | nil =>
        simp only [List.length_nil] at hslen
        omega
      | cons b t =>
        dsimp only
        set k := min (max (sched ri) 1) (min (min 65536 (fileSize - received)) (t.length + 1))
          with hkdef
        have hk1 : 1 ≤ k := by
          rw [hkdef]
          simp only [List.length_cons] at hslen
          omega
        have hk65536 : k ≤ 65536 := by
          rw [hkdef]
          omega
        have hkfs : k ≤ fileSize - received := by
          rw [hkdef]
          omega
        have hmul : (N + 1 - (pc + 1)) * 65536 + 65536 = (N + 1 - pc) * 65536 := by
          have h1 : N + 1 - pc = (N + 1 - (pc + 1)) + 1 := by omega
          rw [h1]
          ring
        have hrec2 := ih (received + k) (pc + 1) (ri + 1) ((b :: t).drop k)
          (by omega) (by omega) (by omega)
          (by simp only [List.length_drop, List.length_cons]
              simp only [List.length_cons] at hslen
              omega)
        exact hrec2
    · have hpcN : pc = N + 1 := by omega
      subst hpcN
      have hlt : received < fileSize := by omega
      rw [recvStreamLoop.eq_def]
      dsimp only
      rw [dif_pos hlt]
      have hct : decide (N + 1 ≤ N + 1) = true := by simp
      rw [hct]
      simp only [if_true]
      exact ⟨trivial, hlt, trivial⟩

/-- Progress events of the receiver streaming loop: `bytes_moved` grows
monotonically from the entry value and never exceeds `file_size`;
`total_bytes` is always `file_size`. -/
theorem recvStreamLoop_pairs (cancel : Nat → Bool) (sched : Nat → Nat) (fileSize : Nat) :
    ∀ (n received pc ri : Nat) (s : List Nat), fileSize - received ≤ n →
    List.Chain' (fun p q : Nat × Nat => p.1 ≤ q.1)
      ((received, fileSize) ::
        progressPairs (recvStreamLoop cancel sched fileSize received pc ri s).evs) ∧
    ∀ q ∈ progressPairs (recvStreamLoop cancel sched fileSize received pc ri s).evs,
      q.1 ≤ fileSize ∧ q.2 = fileSize := by
  intro n
  induction n with
  | zero =>
    intro received pc ri s hn
    have hnlt : ¬received < fileSize := by omega
    rw [recvStreamLoop.eq_def]
    dsimp only
    rw [dif_neg hnlt]
    simp [progressPairs]
  | succ n ih =>
    intro received pc ri s hn
    by_cases hlt : received < fileSize
    · rw [recvStreamLoop.eq_def]
      dsimp only
      rw [dif_pos hlt]
      cases hcb : cancel pc with
      | true => simp [progressPairs]
      | false =>
        simp only [Bool.false_eq_true, if_false]
        cases s with
        | nil => simp [progressPairs]
        | cons b t =>
          dsimp only
          set k := min (max (sched ri) 1)
            (min (min 65536 (fileSize - received)) (t.length + 1)) with hkdef
          have hkfs : k ≤ fileSize - received := by
            rw [hkdef]
            omega
          have hrec2 := ih (received + k) (pc + 1) (ri + 1) ((b :: t).drop k) (by omega)
          constructor
          · simp only [progressPairs, List.filterMap_cons]
            refine List.chain'_cons.mpr ⟨by simp, ?_⟩
            exact hrec2.1
          · simp only [progressPairs, List.filterMap_cons]
            intro q hq
            rcases List.mem_cons.mp hq with hq1 | hq2
            · subst hq1
              exact ⟨by omega, rfl⟩
            · exact hrec2.2 q hq2
    · rw [recvStreamLoop.eq_def]
      dsimp only
      rw [dif_neg hlt]
      simp [progressPairs]

/-- Successful receiver session: a sender connects immediately, the wire
carries a well-formed header, filename and at least `file_size` payload
bytes, and the token stays unset through every poll the session can make.
The receiver stores the first `file_size` payload bytes at
`destination / filename` and ends with the final progress event and the
file-received status. -/
theorem receive_file_ok (cancel : Nat → Bool) (sched : Nat → Nat)
    (acceptReady : Nat → Bool) (fuel : Nat) (dest wire nameBytes payload : List Nat)
    (fileSize : Nat) (hacc : acceptReady 0 = true)
    (hnc : ∀ i, i ≤ 1 + fileSize → cancel i = false)
    (hn : nameBytes.length < 2 ^ 32) (hs : fileSize < 2 ^ 64)
    (hlen : fileSize ≤ payload.length)
    (hwire : wire = (beBytes 4 nameBytes.length ++ beBytes 8 fileSize) ++
      (nameBytes ++ payload)) :
    (receive_file cancel sched acceptReady (fuel + 1) dest wire).result =
      .ok (pathJoin dest (utf8DecodeReplace nameBytes)) ∧
    (receive_file cancel sched acceptReady (fuel + 1) dest wire).file =
      some (pathJoin dest (utf8DecodeReplace nameBytes), payload.take fileSize) ∧
    ∃ evs0, (receive_file cancel sched acceptReady (fuel + 1) dest wire).trace =
      evs0 ++ [.progress fileSize fileSize,
        .statusReceived (pathJoin dest (utf8DecodeReplace nameBytes))] := by
  subst hwire
  have hhdrlen : (beBytes 4 nameBytes.length ++ beBytes 8 fileSize).length = 12 := by
    simp [beBytes_length]
  have hacc1 : acceptLoop cancel acceptReady (fuel + 1) 0 0 = some (some 1) := by
    simp [acceptLoop, hnc 0 (by omega), hacc]
  obtain ⟨j1, hj1⟩ := recvExact_ok sched 12 0
    ((beBytes 4 nameBytes.length ++ beBytes 8 fileSize) ++ (nameBytes ++ payload))
    (by simp [beBytes_length]
        omega)
  rw [List.take_left' hhdrlen, List.drop_left' hhdrlen] at hj1
  have hup : headerUnpack (beBytes 4 nameBytes.length ++ beBytes 8 fileSize) =
      .ok (nameBytes.length, fileSize) := headerUnpack_beBytes _ _ hn hs
  obtain ⟨j2, hj2⟩ := recvExact_ok sched nameBytes.length j1 (nameBytes ++ payload)
    (by simp)
  rw [List.take_left, List.drop_left] at hj2
  have hstream := recvStreamLoop_complete cancel sched fileSize fileSize 0 1 j2 payload
    (by omega) (by omega) (by simpa using hlen)
    (by intro i hi
        exact hnc i (by omega))
  have herr : (recvStreamLoop cancel sched fileSize 0 1 j2 payload).err = false :=
    hstream.2.2.1
  have hcpc : cancel (recvStreamLoop cancel sched fileSize 0 1 j2 payload).pc = false := by
    apply hnc
    have := hstream.2.2.2
    omega
  have hwr : (recvStreamLoop cancel sched fileSize 0 1 j2 payload).written =
      payload.take fileSize := by
    have := hstream.1
    simpa using this
  simp only [receive_file, hacc1, hj1, hup, hj2, herr, hcpc, Bool.false_eq_true, if_false]
  refine ⟨by simp, by simp [hwr], ?_⟩
  refine ⟨[.mkdirDest, .statusMsg "Waiting for sender to connect...", .statusConnected,
    .openDest (pathJoin dest (utf8DecodeReplace nameBytes))] ++
    (recvStreamLoop cancel sched fileSize 0 1 j2 payload).evs, ?_⟩
  simp

/-- Successful sender session with the token never set: the wire carries the
packed header, the encoded basename and the whole file content, and the
session completes. -/
theorem send_file_false (content basename : List Nat) (chunkSize : Nat)
    (hcs : 0 < chunkSize) (hn : (utf8Encode basename).length < 2 ^ 32)
    (hs : content.length < 2 ^ 64) :
    (send_file (fun _ => false) (some content) basename chunkSize true).result =
      .completed ∧
    (send_file (fun _ => false) (some content) basename chunkSize true).wire =
      (beBytes 4 (utf8Encode basename).length ++ beBytes 8 content.length) ++
        (utf8Encode basename ++ content) := by
  have hpack : headerPack (utf8Encode basename).length content.length =
      some (beBytes 4 (utf8Encode basename).length ++ beBytes 8 content.length) := by
    rw [headerPack, if_pos ⟨hn, hs⟩]
  have hwire := sendLoop_false_wire chunkSize hcs content.length content 0
    content.length 0 le_rfl
  simp only [send_file, hpack]
  simp [hwire]

/-- Sender session with the token first observed set at poll `N` while more
than `N` chunks remain: the loop writes exactly the first `N` chunks, the
post-loop check sees the token, and the session reports cancellation. -/
theorem send_file_cancelFrom (content basename : List Nat) (chunkSize N : Nat)
    (hcs : 0 < chunkSize) (hlt : N * chunkSize < content.length)
    (hn : (utf8Encode basename).length < 2 ^ 32) (hs : content.length < 2 ^ 64) :
    (send_file (fun i => decide (N ≤ i)) (some content) basename chunkSize true).result =
      .cancelled ∧
    (send_file (fun i => decide (N ≤ i)) (some content) basename chunkSize true).wire =
      (beBytes 4 (utf8Encode basename).length ++ beBytes 8 content.length) ++
        (utf8Encode basename ++ content.take (N * chunkSize)) := by
  have hpack : headerPack (utf8Encode basename).length content.length =
      some (beBytes 4 (utf8Encode basename).length ++ beBytes 8 content.length) := by
    rw [headerPack, if_pos ⟨hn, hs⟩]
  have hloop := sendLoop_cancelFrom chunkSize N hcs N content 0 content.length 0
    (by omega) (by omega) (by simpa using hlt)
  have hpost : decide (N ≤ (sendLoop (fun i => decide (N ≤ i)) chunkSize content 0
      content.length 0).2.2) = true := by
    rw [hloop.2]
    simp
  simp only [send_file, hpack, hpost, if_true]
  have hw := hloop.1
  simp only [Nat.sub_zero] at hw
  simp [hw]

/-- Progress monotonicity over a whole sender run, and the final
`(total, total)` event on completion. -/
theorem sendRun_pairs (cancel : Nat → Bool) (file : Option (List Nat))
    (basename : List Nat) (chunkSize : Nat) (connectOk : Bool) :
    List.Chain' (fun p q : Nat × Nat => p.1 ≤ q.1)
      (progressPairs (send_file cancel file basename chunkSize connectOk).trace) ∧
    ((send_file cancel file basename chunkSize connectOk).result = .completed →
      ∃ t, (progressPairs (send_file cancel file basename chunkSize connectOk).trace).getLast? =
          some (t, t) ∧
        ∀ q ∈ progressPairs (send_file cancel file basename chunkSize connectOk).trace,
          q.2 = t) := by
  rcases file with _ | content
  · constructor
    · simp [send_file, progressPairs]
    · intro h
      simp [send_file] at h
  · rcases connectOk with _ | _
    · constructor
      · simp [send_file, progressPairs]
      · intro h
        simp [send_file] at h
    · rcases hp : headerPack (utf8Encode basename).length content.length with _ | header
      · constructor
        · simp [send_file, hp, progressPairs]
        · intro h
          simp [send_file, hp] at h
      · have hloop := sendLoop_pairs cancel chunkSize content.length content 0
          content.length 0 le_rfl
        rcases hcb : cancel (sendLoop cancel chunkSize content 0 content.length 0).2.2 with
          _ | _
        · simp only [send_file, hp, hcb, not_true, Bool.false_eq_true, if_false]
          constructor
          · simp only [progressPairs, List.filterMap_append, List.filterMap_cons,
              List.filterMap_nil]
            simp only [progressPairs] at hloop
            simp only [List.nil_append]
            rw [List.chain'_append]
            refine ⟨hloop.1.tail, by simp, ?_⟩
            intro x hx y hy
            simp only [List.head?_cons, Option.mem_def, Option.some.injEq] at hy
            subst hy
            have hxmem : x ∈ (sendLoop cancel chunkSize content 0 content.length 0).1.filterMap
                fun e => match e with
                  | .progress b t => some (b, t)
                  | _ => none := List.mem_of_mem_getLast? hx
            have := hloop.2 x hxmem
            simp only []
            omega
          · intro _
            refine ⟨content.length, ?_, ?_⟩
            · simp only [progressPairs, List.filterMap_append, List.filterMap_cons,
                List.filterMap_nil]
              simp
            · intro q hq
              simp only [progressPairs, List.filterMap_append, List.filterMap_cons,
                List.filterMap_nil] at hq
              simp only [List.nil_append, List.append_assoc] at hq
              rcases List.mem_append.mp hq with hq1 | hq2
              · exact (hloop.2 q (by simpa [progressPairs] using hq1)).2
              · simp at hq2
                rw [hq2]
        · simp only [send_file, hp, hcb, not_true, Bool.false_eq_true, if_false, if_true]
          constructor
          · simp only [progressPairs, List.filterMap_append, List.filterMap_cons,
              List.filterMap_nil]
            simp only [progressPairs] at hloop
            simp only [List.nil_append, List.append_nil]
            exact hloop.1.tail
          · intro h
            simp at h

/-- Progress monotonicity over a whole receiver run, and the final
`(total, total)` event when a stored path is returned. -/
theorem recvRun_pairs (cancel : Nat → Bool) (sched : Nat → Nat)
    (acceptReady : Nat → Bool) (fuel : Nat) (dest wire : List Nat) :
    List.Chain' (fun p q : Nat × Nat => p.1 ≤ q.1)
      (progressPairs (receive_file cancel sched acceptReady fuel dest wire).trace) ∧
    (∀ p, (receive_file cancel sched acceptReady fuel dest wire).result = .ok p →
      ∃ t, (progressPairs (receive_file cancel sched acceptReady fuel dest wire).trace).getLast? =
          some (t, t) ∧
        ∀ q ∈ progressPairs (receive_file cancel sched acceptReady fuel dest wire).trace,
          q.2 = t) := by
  rcases hA : acceptLoop cancel acceptReady fuel 0 0 with _ | mv
  · constructor
    · simp [receive_file, hA, progressPairs]
    · intro p h
      simp [receive_file, hA] at h
  · rcases mv with _ | pc0
    · constructor
      · simp [receive_file, hA, progressPairs]
      · intro p h
        simp [receive_file, hA] at h
    · rcases hR1 : recvExact sched 0 12 wire with e | v1
      · constructor
        · simp [receive_file, hA, hR1, progressPairs]
        · intro p h
          simp [receive_file, hA, hR1] at h
      · obtain ⟨hdr, s1, ri1⟩ := v1
        rcases hU : headerUnpack hdr with e | v2
        · constructor
          · simp [receive_file, hA, hR1, hU, progressPairs]
          · intro p h
            simp [receive_file, hA, hR1, hU] at h
        · obtain ⟨nameLen, fileSize⟩ := v2
          rcases hR2 : recvExact sched ri1 nameLen s1 with e | v3
          · constructor
            · simp [receive_file, hA, hR1, hU, hR2, progressPairs]
            · intro p h
              simp [receive_file, hA, hR1, hU, hR2] at h
          · obtain ⟨nameBytes, s2, ri2⟩ := v3
            have hloop := recvStreamLoop_pairs cancel sched fileSize fileSize 0 pc0 ri2 s2
              (by omega)
            rcases hE : (recvStreamLoop cancel sched fileSize 0 pc0 ri2 s2).err with _ | _
            · rcases hC : cancel (recvStreamLoop cancel sched fileSize 0 pc0 ri2 s2).pc with
                _ | _
              · simp only [receive_file, hA, hR1, hU, hR2, hE, hC, Bool.false_eq_true,
                  if_false]
                constructor
                · simp only [progressPairs, List.filterMap_append, List.filterMap_cons,
                    List.filterMap_nil]
                  simp only [progressPairs] at hloop
                  simp only [List.nil_append]
                  rw [List.chain'_append]
                  refine ⟨hloop.1.tail, by simp, ?_⟩
                  intro x hx y hy
                  simp only [List.head?_cons, Option.mem_def, Option.some.injEq] at hy
                  subst hy
                  have hxmem := List.mem_of_mem_getLast? hx
                  have := hloop.2 x hxmem
                  simp only []
                  omega
                · intro p _
                  refine ⟨fileSize, ?_, ?_⟩
                  · simp only [progressPairs, List.filterMap_append, List.filterMap_cons,
                      List.filterMap_nil]
                    simp
                  · intro q hq
                    simp only [progressPairs, List.filterMap_append, List.filterMap_cons,
                      List.filterMap_nil, List.nil_append, List.append_assoc] at hq
                    rcases List.mem_append.mp hq with hq1 | hq2
                    · exact (hloop.2 q (by simpa [progressPairs] using hq1)).2
                    · simp at hq2
                      rw [hq2]
              · simp only [receive_file, hA, hR1, hU, hR2, hE, hC, Bool.false_eq_true,
                  if_false, if_true]
                constructor
                · simp only [progressPairs, List.filterMap_append, List.filterMap_cons,
                    List.filterMap_nil]
                  simp only [progressPairs] at hloop
                  simp only [List.nil_append, List.append_nil]
                  exact hloop.1.tail
                · intro p h
                  simp at h
            · simp only [receive_file, hA, hR1, hU, hR2, hE, if_true]
              constructor
              · simp only [progressPairs, List.filterMap_append, List.filterMap_cons,
                  List.filterMap_nil]
                simp only [progressPairs] at hloop
                simp only [List.nil_append, List.append_nil]
                exact hloop.1.tail
              · intro p h
                simp at h

/-! ## Claim theorems -/

/-- C2: for every `n` in `[0, 2^32)` and `s` in `[0, 2^64)`, decoding the
12-byte buffer produced by encoding `(n, s)` returns exactly `(n, s)`; and
decoding a buffer of fewer than 12 bytes fails with `MalformedHeader`. -/
theorem claim_C2 (n s : Nat) (hn : n < 2 ^ 32) (hs : s < 2 ^ 64) :
    (headerPack n s).map headerUnpack = some (.ok (n, s)) ∧
    ∀ b : List Nat, b.length < 12 → headerUnpack b = .error .malformedHeader :=
  ⟨headerUnpack_headerPack n s hn hs, fun b hb => headerUnpack_short b hb⟩

/-- Witness for C2 at `n = 5`, `s = 300`, and a 3-byte buffer. -/
theorem claim_C2_witness :
    (headerPack 5 300).map headerUnpack = some (.ok (5, 300)) ∧
    headerUnpack [0, 1, 2] = .error .malformedHeader := by
  have h := claim_C2 5 300 (by norm_num) (by norm_num)
  exact ⟨h.1, h.2 [0, 1, 2] (by norm_num)⟩

/-- C7: calling `send_file` with a file path that does not exist fails with
`FileNotFoundError`, and no socket is opened (no connect attempt appears in
the trace; in fact the trace is empty). -/
theorem claim_C7 (cancel : Nat → Bool) (basename : List Nat) (chunkSize : Nat)
    (connectOk : Bool) :
    (send_file cancel none basename chunkSize connectOk).result = .fileNotFound ∧
    Eff.connect ∉ (send_file cancel none basename chunkSize connectOk).trace := by
  constructor
  · rfl
  · simp [send_file]

/-- When the token is observed set at poll `pc + K` and no sender is waiting
at any of the `K` accept attempts before that, the accept loop takes the
`while`-`else` arm and reports cancellation before any connection. -/
theorem acceptLoop_cancelled (cancel acceptReady : Nat → Bool) :
    ∀ (fuel K pc ai : Nat), K < fuel → cancel (pc + K) = true →
    (∀ j, j < K → acceptReady (ai + j) = false) →
    acceptLoop cancel acceptReady fuel pc ai = some none := by
  intro fuel
  induction fuel with
  | zero =>
    intro K pc ai hKf
    omega
  | succ fuel ih =>
    intro K pc ai hKf hK hacc
    by_cases hc : cancel pc = true
    · simp [acceptLoop, hc]
    · have hK0 : K ≠ 0 := by
        intro h0
        subst h0
        rw [Nat.add_zero] at hK
        exact hc hK
      have haccai : acceptReady ai = false := by
        have := hacc 0 (by omega)
        simpa using this
      have hrec := ih (K - 1) (pc + 1) (ai + 1) (by omega)
        (by have h1 : pc + 1 + (K - 1) = pc + K := by omega
            rw [h1]
            exact hK)
        (by intro j hj
            have h1 : ai + 1 + j = ai + (j + 1) := by omega
            rw [h1]
            exact hacc (j + 1) (by omega))
      simp [acceptLoop, hc, haccai, hrec]

/-- C5: if the cancellation token is set before any sender connects — it is
observed set at some poll `K`, and no sender was waiting at any of the `K`
earlier accept attempts — `receive_file` returns `None` (Cancelled), never
opens a destination file and never writes file bytes. -/
theorem claim_C5 (cancel : Nat → Bool) (sched : Nat → Nat) (acceptReady : Nat → Bool)
    (K fuel : Nat) (dest wire : List Nat) (hK : cancel K = true)
    (hacc : ∀ i, i < K → acceptReady i = false) (hfuel : K < fuel) :
    (receive_file cancel sched acceptReady fuel dest wire).result = .cancelled ∧
    (receive_file cancel sched acceptReady fuel dest wire).file = none ∧
    (∀ p, Eff.openDest p ∉ (receive_file cancel sched acceptReady fuel dest wire).trace) ∧
    (∀ bs, Eff.writeFile bs ∉
      (receive_file cancel sched acceptReady fuel dest wire).trace) := by
  have hA : acceptLoop cancel acceptReady fuel 0 0 = some none := by
    apply acceptLoop_cancelled cancel acceptReady fuel K 0 0 hfuel
    · simpa using hK
    · intro j hj
      simpa using hacc j hj
  refine ⟨by simp [receive_file, hA], by simp [receive_file, hA], ?_, ?_⟩
  · intro p
    simp [receive_file, hA]
  · intro bs
    simp [receive_file, hA]

/-- Witness for C5: token set only from poll 2 on, after two accept attempts
time out with no sender waiting. -/
theorem claim_C5_witness :
    (receive_file (fun i => decide (2 ≤ i)) (fun _ => 0) (fun _ => false) 3
        [47, 100] []).result = .cancelled ∧
    (receive_file (fun i => decide (2 ≤ i)) (fun _ => 0) (fun _ => false) 3
        [47, 100] []).file = none ∧
    (∀ p, Eff.openDest p ∉
      (receive_file (fun i => decide (2 ≤ i)) (fun _ => 0) (fun _ => false) 3
        [47, 100] []).trace) ∧
    (∀ bs, Eff.writeFile bs ∉
      (receive_file (fun i => decide (2 ≤ i)) (fun _ => 0) (fun _ => false) 3
        [47, 100] []).trace) :=
  claim_C5 (fun i => decide (2 ≤ i)) (fun _ => 0) (fun _ => false) 2 3 [47, 100] []
    (by decide) (fun _ _ => rfl) (by decide)

/-- C8: the exact-read helper either returns exactly the requested number of
bytes (accumulating partial reads under any schedule) or raises
`ConnectionError` when the peer closes early; in particular a receiver whose
peer delivers fewer than 12 bytes before closing fails with
`ConnectionError` while reading the header. -/
theorem claim_C8 (sched : Nat → Nat) (i size : Nat) (s : List Nat) :
    (size ≤ s.length →
      ∃ j, recvExact sched i size s = .ok (s.take size, s.drop size, j)) ∧
    (s.length < size → recvExact sched i size s = .error ()) ∧
    (∀ (cancel acceptReady : Nat → Bool) (fuel : Nat) (dest wire : List Nat),
      acceptReady 0 = true → cancel 0 = false → wire.length < 12 →
      (receive_file cancel sched acceptReady (fuel + 1) dest wire).result = .connError) := by
  refine ⟨fun h => recvExact_ok sched size i s h, fun h => recvExact_err sched size i s h, ?_⟩
  intro cancel acceptReady fuel dest wire hacc hc0 hwlen
  have hA : acceptLoop cancel acceptReady (fuel + 1) 0 0 = some (some 1) := by
    simp [acceptLoop, hc0, hacc]
  have hE : recvExact sched 0 12 wire = .error () := recvExact_err sched 12 0 wire hwlen
  simp [receive_file, hA, hE]

/-- Witness for C8: byte-at-a-time schedule assembling a 3-byte read, a
too-short stream, and a receiver whose peer closes after 5 bytes. -/
theorem claim_C8_witness :
    (∃ j, recvExact (fun _ => 1) 0 3 [7, 8, 9, 10] = .ok ([7, 8, 9], [10], j)) ∧
    recvExact (fun _ => 1) 0 5 [1] = .error () ∧
    (receive_file (fun _ => false) (fun _ => 1) (fun _ => true) 1 [47, 100]
      [0, 0, 0, 0, 0]).result = .connError := by
  have h1 := (claim_C8 (fun _ => 1) 0 3 [7, 8, 9, 10]).1 (by norm_num)
  have h2 := (claim_C8 (fun _ => 1) 0 5 [1]).2.1 (by norm_num)
  have h3 := (claim_C8 (fun _ => 1) 0 0 []).2.2 (fun _ => false) (fun _ => true) 0
    [47, 100] [0, 0, 0, 0, 0] rfl rfl (by norm_num)
  exact ⟨h1, h2, h3⟩

/-- C9: the receiver joins the received filename onto the destination
directory without sanitisation; a filename carrying `../` produces a stored
path that does not lie under the destination directory (here the name
`../evil` against destination `/safe` yields `/safe/../evil`, which
normalises outside `/safe`). -/
theorem claim_C9 :
    (receive_file (fun _ => false) (fun _ => 65536) (fun _ => true) 1
        [47, 115, 97, 102, 101]
        (beBytes 4 7 ++ beBytes 8 1 ++ [46, 46, 47, 101, 118, 105, 108] ++ [9])).result =
      .ok (pathJoin [47, 115, 97, 102, 101] [46, 46, 47, 101, 118, 105, 108]) ∧
    (receive_file (fun _ => false) (fun _ => 65536) (fun _ => true) 1
        [47, 115, 97, 102, 101]
        (beBytes 4 7 ++ beBytes 8 1 ++ [46, 46, 47, 101, 118, 105, 108] ++ [9])).file =
      some (pathJoin [47, 115, 97, 102, 101] [46, 46, 47, 101, 118, 105, 108], [9]) ∧
    underDir [47, 115, 97, 102, 101]
      (pathJoin [47, 115, 97, 102, 101] [46, 46, 47, 101, 118, 105, 108]) = false := by
  refine ⟨?_, ?_, by decide⟩ <;>
    simp [receive_file, acceptLoop, recvExact, recvStreamLoop, beBytes, headerUnpack,
      beVal, pathJoin, utf8DecodeReplace, utf8Step]

/-- C1: for every byte sequence (including the empty one) and well-formed
basename, feeding the exact byte stream the sender writes into the receiver
(under any partial-read schedule) completes both sessions and stores, at
`destination / basename`, a file whose content is byte-for-byte the source
content. -/
theorem claim_C1 (content basename dest : List Nat) (sched : Nat → Nat) (fuel : Nat)
    (hname : ∀ c ∈ basename, ValidScalar c)
    (hn : (utf8Encode basename).length < 2 ^ 32) (hs : content.length < 2 ^ 64) :
    (send_file (fun _ => false) (some content) basename 65536 true).result = .completed ∧
    (receive_file (fun _ => false) sched (fun _ => true) (fuel + 1) dest
        (send_file (fun _ => false) (some content) basename 65536 true).wire).result =
      .ok (pathJoin dest basename) ∧
    (receive_file (fun _ => false) sched (fun _ => true) (fuel + 1) dest
        (send_file (fun _ => false) (some content) basename 65536 true).wire).file =
      some (pathJoin dest basename, content) := by
  have hsend := send_file_false content basename 65536 (by norm_num) hn hs
  have hrecv := receive_file_ok (fun _ => false) sched (fun _ => true) fuel dest
    (send_file (fun _ => false) (some content) basename 65536 true).wire
    (utf8Encode basename) content content.length rfl (fun _ _ => rfl) hn hs le_rfl
    hsend.2
  have hdec : utf8DecodeReplace (utf8Encode basename) = basename :=
    utf8DecodeReplace_utf8Encode basename hname
  rw [hdec, List.take_length] at hrecv
  exact ⟨hsend.1, hrecv.1, hrecv.2.1⟩

/-- Witness for C1: the 3-byte file `[1, 2, 3]` named `a` into `/d`. -/
theorem claim_C1_witness :
    (send_file (fun _ => false) (some [1, 2, 3]) [97] 65536 true).result = .completed ∧
    (receive_file (fun _ => false) (fun _ => 0) (fun _ => true) 1 [47, 100]
        (send_file (fun _ => false) (some [1, 2, 3]) [97] 65536 true).wire).result =
      .ok (pathJoin [47, 100] [97]) ∧
    (receive_file (fun _ => false) (fun _ => 0) (fun _ => true) 1 [47, 100]
        (send_file (fun _ => false) (some [1, 2, 3]) [97] 65536 true).wire).file =
      some (pathJoin [47, 100] [97], [1, 2, 3]) :=
  claim_C1 [1, 2, 3] [97] [47, 100] (fun _ => 0) 0 (by decide) (by decide) (by decide)

/-- Counterexample to C3 as stated: a 1-byte transfer in which the token is
set right after the last (and only) chunk is written. All `file_size` bytes
were written (`writeFile [5]` and `progress 1 1` are in the trace), yet the
receiver deletes the file, emits no file-received status, and returns
`None` (Cancelled) instead of the stored path. -/
theorem claim_C3_counterexample :
    (receive_file (fun i => decide (2 ≤ i)) (fun _ => 65536) (fun _ => true) 1 [47, 100]
        (beBytes 4 1 ++ beBytes 8 1 ++ [97] ++ [5])) =
      ⟨[.mkdirDest, .statusMsg "Waiting for sender to connect...", .statusConnected,
          .openDest [47, 100, 47, 97], .writeFile [5], .progress 1 1,
          .unlink [47, 100, 47, 97], .statusMsg "Transfer cancelled by user."],
        .cancelled, none⟩ ∧
    ∀ p, Eff.statusReceived p ∉
      (receive_file (fun i => decide (2 ≤ i)) (fun _ => 65536) (fun _ => true) 1 [47, 100]
        (beBytes 4 1 ++ beBytes 8 1 ++ [97] ++ [5])).trace := by
  have hred : (receive_file (fun i => decide (2 ≤ i)) (fun _ => 65536) (fun _ => true) 1
      [47, 100] (beBytes 4 1 ++ beBytes 8 1 ++ [97] ++ [5])) =
      ⟨[.mkdirDest, .statusMsg "Waiting for sender to connect...", .statusConnected,
          .openDest [47, 100, 47, 97], .writeFile [5], .progress 1 1,
          .unlink [47, 100, 47, 97], .statusMsg "Transfer cancelled by user."],
        .cancelled, none⟩ := by
    have ht : List.take 1 [97, 5] = ([97] : List Nat) := rfl
    have hd : List.drop 1 [97, 5] = ([5] : List Nat) := rfl
    simp [receive_file, acceptLoop, recvExact, recvStreamLoop, beBytes, headerUnpack,
      beVal, pathJoin, utf8DecodeReplace, utf8Step, ht, hd]
  refine ⟨hred, ?_⟩
  intro p
  rw [hred]
  simp

/-- C3 (amended): once exactly `file_size` bytes have been written, the
receiver emits the final progress event and the file-received status and
returns the stored path, provided the (monotone) cancellation token is still
unset at the poll that follows the read loop; if the token is set by then,
the receiver instead deletes the fully written file and returns Cancelled
(see the counterexample). -/
theorem claim_C3 (cancel : Nat → Bool) (sched : Nat → Nat) (fuel : Nat)
    (dest nameBytes payload : List Nat) (fileSize : Nat)
    (hmono : ∀ i j, i ≤ j → cancel i = true → cancel j = true)
    (hfin : cancel (1 + fileSize) = false)
    (hn : nameBytes.length < 2 ^ 32) (hs : fileSize < 2 ^ 64)
    (hlen : fileSize ≤ payload.length) :
    (receive_file cancel sched (fun _ => true) (fuel + 1) dest
        ((beBytes 4 nameBytes.length ++ beBytes 8 fileSize) ++
          (nameBytes ++ payload))).result =
      .ok (pathJoin dest (utf8DecodeReplace nameBytes)) ∧
    (receive_file cancel sched (fun _ => true) (fuel + 1) dest
        ((beBytes 4 nameBytes.length ++ beBytes 8 fileSize) ++
          (nameBytes ++ payload))).file =
      some (pathJoin dest (utf8DecodeReplace nameBytes), payload.take fileSize) ∧
    ∃ evs0, (receive_file cancel sched (fun _ => true) (fuel + 1) dest
        ((beBytes 4 nameBytes.length ++ beBytes 8 fileSize) ++
          (nameBytes ++ payload))).trace =
      evs0 ++ [.progress fileSize fileSize,
        .statusReceived (pathJoin dest (utf8DecodeReplace nameBytes))] := by
  have hnc : ∀ i, i ≤ 1 + fileSize → cancel i = false := by
    intro i hi
    cases hci : cancel i with
    | false => rfl
    | true =>
      have := hmono i (1 + fileSize) hi hci
      rw [hfin] at this
      exact absurd this (by simp)
  exact receive_file_ok cancel sched (fun _ => true) fuel dest _ nameBytes payload
    fileSize rfl hnc hn hs hlen rfl

/-- Witness for the amended C3: a 1-byte transfer with the token never set. -/
theorem claim_C3_witness :
    (receive_file (fun _ => false) (fun _ => 0) (fun _ => true) 1 [47, 100]
        ((beBytes 4 1 ++ beBytes 8 1) ++ ([97] ++ [5]))).result =
      .ok (pathJoin [47, 100] (utf8DecodeReplace [97])) ∧
    (receive_file (fun _ => false) (fun _ => 0) (fun _ => true) 1 [47, 100]
        ((beBytes 4 1 ++ beBytes 8 1) ++ ([97] ++ [5]))).file =
      some (pathJoin [47, 100] (utf8DecodeReplace [97]), [5].take 1) ∧
    ∃ evs0, (receive_file (fun _ => false) (fun _ => 0) (fun _ => true) 1 [47, 100]
        ((beBytes 4 1 ++ beBytes 8 1) ++ ([97] ++ [5]))).trace =
      evs0 ++ [.progress 1 1, .statusReceived (pathJoin [47, 100] (utf8DecodeReplace [97]))] := by
  have h := claim_C3 (fun _ => false) (fun _ => 0) 0 [47, 100] [97] [5] 1
    (fun i j _ hf => hf) rfl (by decide) (by decide) (by decide)
  exact h

/-- C10: for every byte sequence received as the filename — valid UTF-8 or
not — decoding with replacement yields some best-effort filename and the
session proceeds to completion; bad encoding never aborts the session. -/
theorem claim_C10 (nameBytes payload dest : List Nat) (fileSize fuel : Nat)
    (sched : Nat → Nat) (hn : nameBytes.length < 2 ^ 32) (hs : fileSize < 2 ^ 64)
    (hlen : fileSize ≤ payload.length) :
    (receive_file (fun _ => false) sched (fun _ => true) (fuel + 1) dest
        ((beBytes 4 nameBytes.length ++ beBytes 8 fileSize) ++
          (nameBytes ++ payload))).result =
      .ok (pathJoin dest (utf8DecodeReplace nameBytes)) ∧
    (receive_file (fun _ => false) sched (fun _ => true) (fuel + 1) dest
        ((beBytes 4 nameBytes.length ++ beBytes 8 fileSize) ++
          (nameBytes ++ payload))).file =
      some (pathJoin dest (utf8DecodeReplace nameBytes), payload.take fileSize) :=
  ⟨(receive_file_ok (fun _ => false) sched (fun _ => true) fuel dest _ nameBytes payload
      fileSize rfl (fun _ _ => rfl) hn hs hlen rfl).1,
    (receive_file_ok (fun _ => false) sched (fun _ => true) fuel dest _ nameBytes payload
      fileSize rfl (fun _ _ => rfl) hn hs hlen rfl).2.1⟩

/-- Witness for C10: the malformed name bytes `[0xFF, 0xC3]` still produce a
completed session storing under the replacement-decoded name `[�, �]`. -/
theorem claim_C10_witness :
    (receive_file (fun _ => false) (fun _ => 0) (fun _ => true) 1 [47, 100]
        ((beBytes 4 2 ++ beBytes 8 1) ++ ([255, 195] ++ [9]))).result =
      .ok (pathJoin [47, 100] (utf8DecodeReplace [255, 195])) ∧
    (receive_file (fun _ => false) (fun _ => 0) (fun _ => true) 1 [47, 100]
        ((beBytes 4 2 ++ beBytes 8 1) ++ ([255, 195] ++ [9]))).file =
      some (pathJoin [47, 100] (utf8DecodeReplace [255, 195]), [9].take 1) ∧
    utf8DecodeReplace [255, 195] = [65533, 65533] := by
  have h := claim_C10 [255, 195] [9] [47, 100] 1 0 (fun _ => 0) (by decide) (by decide)
    (by decide)
  refine ⟨h.1, h.2, ?_⟩
  simp [utf8DecodeReplace, utf8Step]

/-- C4: token set after `N` chunks with `0 < N·chunkSize < file_size`. The
sender stops after writing exactly the first `N` chunks (no further writes
after observing the token) and reports cancellation; the receiver, its token
first observed set after `N` received chunks short of `file_size`, deletes
the partially written destination file and returns `None` (Cancelled). -/
theorem claim_C4 (content basename dest nameBytes payload : List Nat)
    (chunkSize N fileSize fuel : Nat) (sched : Nat → Nat)
    (hcs : 0 < chunkSize) (hN : 0 < N) (hsend_lt : N * chunkSize < content.length)
    (hn1 : (utf8Encode basename).length < 2 ^ 32) (hs1 : content.length < 2 ^ 64)
    (hrecv_lt : N * 65536 < fileSize) (hlen : fileSize ≤ payload.length)
    (hn2 : nameBytes.length < 2 ^ 32) (hs2 : fileSize < 2 ^ 64) :
    (send_file (fun i => decide (N ≤ i)) (some content) basename chunkSize true).result =
      .cancelled ∧
    (send_file (fun i => decide (N ≤ i)) (some content) basename chunkSize true).wire =
      (beBytes 4 (utf8Encode basename).length ++ beBytes 8 content.length) ++
        (utf8Encode basename ++ content.take (N * chunkSize)) ∧
    (receive_file (fun i => decide (N + 1 ≤ i)) sched (fun _ => true) (fuel + 1) dest
        ((beBytes 4 nameBytes.length ++ beBytes 8 fileSize) ++
          (nameBytes ++ payload))).result = .cancelled ∧
    (receive_file (fun i => decide (N + 1 ≤ i)) sched (fun _ => true) (fuel + 1) dest
        ((beBytes 4 nameBytes.length ++ beBytes 8 fileSize) ++
          (nameBytes ++ payload))).file = none ∧
    Eff.unlink (pathJoin dest (utf8DecodeReplace nameBytes)) ∈
      (receive_file (fun i => decide (N + 1 ≤ i)) sched (fun _ => true) (fuel + 1) dest
        ((beBytes 4 nameBytes.length ++ beBytes 8 fileSize) ++
          (nameBytes ++ payload))).trace := by
  have hsend := send_file_cancelFrom content basename chunkSize N hcs hsend_lt hn1 hs1
  refine ⟨hsend.1, hsend.2, ?_⟩
  have hhdrlen : (beBytes 4 nameBytes.length ++ beBytes 8 fileSize).length = 12 := by
    simp [beBytes_length]
  have hc0 : decide (N + 1 ≤ 0) = false := by simp
  have hA : acceptLoop (fun i => decide (N + 1 ≤ i)) (fun _ => true) (fuel + 1) 0 0 =
      some (some 1) := by
    simp [acceptLoop]
  obtain ⟨j1, hj1⟩ := recvExact_ok sched 12 0
    ((beBytes 4 nameBytes.length ++ beBytes 8 fileSize) ++ (nameBytes ++ payload))
    (by simp [beBytes_length]
        omega)
  rw [List.take_left' hhdrlen, List.drop_left' hhdrlen] at hj1
  have hup : headerUnpack (beBytes 4 nameBytes.length ++ beBytes 8 fileSize) =
      .ok (nameBytes.length, fileSize) := headerUnpack_beBytes _ _ hn2 hs2
  obtain ⟨j2, hj2⟩ := recvExact_ok sched nameBytes.length j1 (nameBytes ++ payload)
    (by simp)
  rw [List.take_left, List.drop_left] at hj2
  have hmid := recvStreamLoop_cancelMid sched fileSize N N 0 1 j2 payload
    (by omega) (by omega) (by omega) (by simpa using hlen)
  have herr : (recvStreamLoop (fun i => decide (N + 1 ≤ i)) sched fileSize 0 1 j2
      payload).err = false := hmid.1
  have hcpc : decide (N + 1 ≤ (recvStreamLoop (fun i => decide (N + 1 ≤ i)) sched fileSize
      0 1 j2 payload).pc) = true := by
    rw [hmid.2.2]
    simp
  simp only [receive_file, hA, hj1, hup, hj2, herr, hcpc, Bool.false_eq_true, if_false,
    if_true]
  refine ⟨by simp, by simp, ?_⟩
  simp

/-- Witness for C4: token after 1 chunk of 1 byte against a 3-byte file, and
a receiver announced 65537 bytes cancelled after its first chunk. -/
theorem claim_C4_witness :
    (send_file (fun i => decide (1 ≤ i)) (some [1, 2, 3]) [97] 1 true).result =
      .cancelled ∧
    (send_file (fun i => decide (1 ≤ i)) (some [1, 2, 3]) [97] 1 true).wire =
      (beBytes 4 (utf8Encode [97]).length ++ beBytes 8 ([1, 2, 3] : List Nat).length) ++
        (utf8Encode [97] ++ ([1, 2, 3] : List Nat).take (1 * 1)) ∧
    (receive_file (fun i => decide (1 + 1 ≤ i)) (fun _ => 0) (fun _ => true) (0 + 1)
        [47, 100] ((beBytes 4 ([98] : List Nat).length ++ beBytes 8 65537) ++
          ([98] ++ List.replicate 65537 0))).result = .cancelled ∧
    (receive_file (fun i => decide (1 + 1 ≤ i)) (fun _ => 0) (fun _ => true) (0 + 1)
        [47, 100] ((beBytes 4 ([98] : List Nat).length ++ beBytes 8 65537) ++
          ([98] ++ List.replicate 65537 0))).file = none ∧
    Eff.unlink (pathJoin [47, 100] (utf8DecodeReplace [98])) ∈
      (receive_file (fun i => decide (1 + 1 ≤ i)) (fun _ => 0) (fun _ => true) (0 + 1)
        [47, 100] ((beBytes 4 ([98] : List Nat).length ++ beBytes 8 65537) ++
          ([98] ++ List.replicate 65537 0))).trace :=
  claim_C4 [1, 2, 3] [97] [47, 100] [98] (List.replicate 65537 0) 1 1 65537 0
    (fun _ => 0) (by decide) (by decide) (by decide) (by decide) (by decide)
    (by decide)
    (by have := List.length_replicate 65537 (0 : Nat)
        omega)
    (by decide) (by decide)

/-- C6: for every sender or receiver session — under any cancellation
schedule and any partial-read schedule — the `bytes_moved` values passed to
the progress callback are monotonically non-decreasing, and on a session that
ends successfully the final emitted event is `(total_bytes, total_bytes)`
with `total_bytes` the announced size carried by every progress event. -/
theorem claim_C6 (cancel : Nat → Bool) (file : Option (List Nat)) (basename : List Nat)
    (chunkSize : Nat) (connectOk : Bool) (cancelR : Nat → Bool) (sched : Nat → Nat)
    (acceptReady : Nat → Bool) (fuel : Nat) (dest wire : List Nat) :
    List.Chain' (fun p q : Nat × Nat => p.1 ≤ q.1)
      (progressPairs (send_file cancel file basename chunkSize connectOk).trace) ∧
    ((send_file cancel file basename chunkSize connectOk).result = .completed →
      ∃ t, (progressPairs
          (send_file cancel file basename chunkSize connectOk).trace).getLast? =
          some (t, t) ∧
        ∀ q ∈ progressPairs (send_file cancel file basename chunkSize connectOk).trace,
          q.2 = t) ∧
    List.Chain' (fun p q : Nat × Nat => p.1 ≤ q.1)
      (progressPairs (receive_file cancelR sched acceptReady fuel dest wire).trace) ∧
    (∀ p, (receive_file cancelR sched acceptReady fuel dest wire).result = .ok p →
      ∃ t, (progressPairs
          (receive_file cancelR sched acceptReady fuel dest wire).trace).getLast? =
          some (t, t) ∧
        ∀ q ∈ progressPairs (receive_file cancelR sched acceptReady fuel dest wire).trace,
          q.2 = t) :=
  ⟨(sendRun_pairs cancel file basename chunkSize connectOk).1,
    (sendRun_pairs cancel file basename chunkSize connectOk).2,
    (recvRun_pairs cancelR sched acceptReady fuel dest wire).1,
    (recvRun_pairs cancelR sched acceptReady fuel dest wire).2⟩

/-- Witness for C6: a completed 3-byte send and a completed 3-byte receive of
its wire, both with the final `(3, 3)` event. -/
theorem claim_C6_witness :
    List.Chain' (fun p q : Nat × Nat => p.1 ≤ q.1)
      (progressPairs (send_file (fun _ => false) (some [1, 2, 3]) [97] 65536
        true).trace) ∧
    (∃ t, (progressPairs (send_file (fun _ => false) (some [1, 2, 3]) [97] 65536
        true).trace).getLast? = some (t, t) ∧
      ∀ q ∈ progressPairs (send_file (fun _ => false) (some [1, 2, 3]) [97] 65536
        true).trace, q.2 = t) ∧
    List.Chain' (fun p q : Nat × Nat => p.1 ≤ q.1)
      (progressPairs (receive_file (fun _ => false) (fun _ => 0) (fun _ => true) 1
        [47, 100]
        (send_file (fun _ => false) (some [1, 2, 3]) [97] 65536 true).wire).trace) ∧
    (∃ t, (progressPairs (receive_file (fun _ => false) (fun _ => 0) (fun _ => true) 1
        [47, 100]
        (send_file (fun _ => false) (some [1, 2, 3]) [97] 65536 true).wire).trace).getLast? =
        some (t, t) ∧
      ∀ q ∈ progressPairs (receive_file (fun _ => false) (fun _ => 0) (fun _ => true) 1
        [47, 100]
        (send_file (fun _ => false) (some [1, 2, 3]) [97] 65536 true).wire).trace,
        q.2 = t) := by
  have h := claim_C6 (fun _ => false) (some [1, 2, 3]) [97] 65536 true (fun _ => false)
    (fun _ => 0) (fun _ => true) 1 [47, 100]
    (send_file (fun _ => false) (some [1, 2, 3]) [97] 65536 true).wire
  have hsend := send_file_false [1, 2, 3] [97] 65536 (by norm_num) (by decide) (by decide)
  have hrecv := receive_file_ok (fun _ => false) (fun _ => 0) (fun _ => true) 0 [47, 100]
    (send_file (fun _ => false) (some [1, 2, 3]) [97] 65536 true).wire
    (utf8Encode [97]) [1, 2, 3] 3 rfl (fun _ _ => rfl) (by decide) (by decide)
    (by norm_num) hsend.2
  exact ⟨h.1, h.2.1 hsend.1, h.2.2.1, h.2.2.2 _ hrecv.1⟩
